import Mathlib

set_option exponentiation.threshold 40000
set_option maxRecDepth 1000000

/-!
Verification of the SimpleFHE bit-level homomorphic encryption scheme
(`src/simple_fhe.py`).

The engine is constructed from a `seed` and a `key_size`: Python seeds the
global Mersenne-Twister stream (`random.seed(seed)`) and draws
`2 * key_size` samples of `random.randint(0, 1)` (secret key first, then
public key).  We embed CPython's MT19937 generator exactly: `init_by_array`
seeding on the 32-bit words of the seed, the twist and temper steps of
`genrand_uint32`, `getrandbits(k) = genrand() >> (32-k)`, and
`_randbelow(2)` drawing `getrandbits(2)` with rejection while the draw is
`≥ 2` (CPython 3.11 uses `k = n.bit_length() = 2` bits).  The rejection
loop is modelled with fuel, so construction returns an `Option`.

The 624-word generator state is packed into one natural number so that all
state operations are single arithmetic steps, and the seeding/twist loops
are written with a strict iterator (`iterN`) whose per-step forcing keeps
evaluation shallow; the C loops' running indices `i`, `j` are recovered
from the iteration counter (`i` walks `1..623` and wraps to `1`, copying
word 623 into word 0 whenever it leaves index 623, so at step `t` of
seeding `i = 1 + (t mod 623)`; `j` cycles through the key, `j = t mod kl`).
This embedding reproduces CPython's `random.getrandbits(32)` and
`random.randint(0, 1)` streams exactly (checked against CPython 3.11 for
seeds 0, 1, 5, 42 and 123456789012345).

The scheme operations `encrypt`, `decrypt`, `add`, `multiply` are pure
functions of the key material; Python exceptions are modelled with
`Except String`.  Python's `%` and `//` on a positive divisor coincide with
Lean's `Int.emod` / `Int.ediv` (the default `%` and `/` on `Int`), which is
checked by examples below.
-/

namespace MT19937

/-- Word modulus of the generator: 2^32. -/
def W : Nat := 4294967296

/-- Number of 32-bit words of generator state. -/
def stateLen : Nat := 624

/-- The 624-word state is packed into a single natural number,
word `i` occupying bits `[32*i, 32*i+32)`. -/
def getW (s i : Nat) : Nat := s / 2 ^ (32 * i) % W

/-- Replace word `i` of the packed state with `v` (reduced mod 2^32). -/
def setW (s i v : Nat) : Nat := s + v % W * 2 ^ (32 * i) - getW s i * 2 ^ (32 * i)

/-- Force a natural number to a literal before passing it on (keeps kernel
evaluation of long iterations shallow). -/
def seqNat {α : Type} (a : Nat) (f : Nat → α) : α :=
  match a with
  | 0 => f 0
  | b + 1 => f (b + 1)

/-- Iterate `g` over a descending counter, forcing the state at each step:
`iterN g n s = g 0 (g 1 (… (g (n-1) s) …))`. -/
def iterN (g : Nat → Nat → Nat) : Nat → Nat → Nat
  | 0, s => s
  | c + 1, s => seqNat (g c s) (iterN g c)

/-- Step `c` (counting down from 622) of `init_genrand`, writing word
`i = 623 - c`: `mt[i] = (1812433253 * (mt[i-1] ^ (mt[i-1] >> 30)) + i) mod 2^32`. -/
def igStep (c s : Nat) : Nat :=
  let i := 623 - c
  let prev := getW s (i - 1)
  setW s i ((1812433253 * (prev ^^^ prev / 2 ^ 30) + i) % W)

/-- `init_genrand(s)` of mt19937ar.c: fill the state from a single 32-bit seed. -/
def initGenrand (s : Nat) : Nat := iterN igStep 623 (s % W)

/-- The index-wrap of the seeding loops: after writing word 623 the C code
copies word 623 into word 0 and restarts at index 1. -/
def wrapCopy (i mt : Nat) : Nat :=
  if i = 623 then setW mt 0 (getW mt 623) else mt

/-- Step of the first mixing loop of `init_by_array` (counter `c` counts
down from `k - 1`; step index `t = k - 1 - c`, writing word
`i = 1 + (t mod 623)` with key word `j = t mod kl`):
`mt[i] = ((mt[i] ^ ((mt[i-1] ^ (mt[i-1] >> 30)) * 1664525)) + key[j] + j) mod 2^32`. -/
def iba1Step (key : List Nat) (kl k c mt : Nat) : Nat :=
  let t := k - 1 - c
  let i := 1 + t % 623
  let j := t % kl
  let prev := getW mt (i - 1)
  let v := ((getW mt i ^^^ (prev ^^^ prev / 2 ^ 30) * 1664525) + key.getD j 0 + j) % W
  wrapCopy i (setW mt i v)

/-- Step of the second mixing loop of `init_by_array` (623 steps continuing
the index progression after the `k` steps of the first loop):
`mt[i] = ((mt[i] ^ ((mt[i-1] ^ (mt[i-1] >> 30)) * 1566083941)) - i) mod 2^32`. -/
def iba2Step (k c mt : Nat) : Nat :=
  let t := 622 - c
  let i := 1 + (k + t) % 623
  let prev := getW mt (i - 1)
  let v := ((getW mt i ^^^ (prev ^^^ prev / 2 ^ 30) * 1566083941) + (W - i)) % W
  wrapCopy i (setW mt i v)

/-- `init_by_array(key)` of mt19937ar.c, as used by CPython's `random_seed`:
mix the key into `init_genrand(19650218)` and pin the top bit of word 0. -/
def initByArray (key : List Nat) : Nat :=
  let kl := key.length
  let k := max stateLen kl
  let mt := initGenrand 19650218
  let mt := iterN (iba1Step key kl k) k mt
  let mt := iterN (iba2Step k) 623 mt
  setW mt 0 2147483648

/-- One write of the twist (state regeneration), at word `i = 623 - c`,
reading the already-updated words exactly as the in-place C loops do. -/
def twistStep (c acc : Nat) : Nat :=
  let i := 623 - c
  let y := getW acc i / 2 ^ 31 * 2 ^ 31 + getW acc ((i + 1) % 624) % 2 ^ 31
  let v := getW acc ((i + 397) % 624) ^^^ y / 2 ^^^ (if y % 2 = 1 then 2567483615 else 0)
  setW acc i (v % W)

/-- One full twist of MT19937, updating the 624 words in index order. -/
def twist (mt : Nat) : Nat := iterN twistStep 624 mt

/-- Output tempering of MT19937. -/
def temper (y0 : Nat) : Nat :=
  let y1 := y0 ^^^ y0 / 2 ^ 11
  let y2 := y1 ^^^ (y1 * 2 ^ 7 &&& 2636928640)
  let y3 := y2 ^^^ (y2 * 2 ^ 15 &&& 4022730752)
  y3 ^^^ y3 / 2 ^ 18

/-- Generator state: packed word array plus the output index `mti`. -/
structure State where
  mt : Nat
  mti : Nat
deriving DecidableEq

/-- `genrand_uint32`: twist when the output index is exhausted, then temper. -/
def genrand (st : State) : Nat × State :=
  if st.mti ≥ stateLen then
    let m := twist st.mt
    (temper (getW m 0), ⟨m, 1⟩)
  else
    (temper (getW st.mt st.mti), ⟨st.mt, st.mti + 1⟩)

/-- `getrandbits(k)` for `0 < k ≤ 32`: the top `k` bits of one generator word. -/
def getrandbits (k : Nat) (st : State) : Nat × State :=
  let (y, st') := genrand st
  (y / 2 ^ (32 - k), st')

/-- The 32-bit little-endian words of a seed value (`fuel ≥ n` suffices). -/
def seedWordsAux : Nat → Nat → List Nat
  | 0, _ => []
  | fuel + 1, n => if n = 0 then [] else n % W :: seedWordsAux fuel (n / W)

/-- The key array CPython passes to `init_by_array` for an integer seed. -/
def seedKey (n : Nat) : List Nat :=
  if n = 0 then [0] else seedWordsAux n n

/-- The global generator state right after `random.seed(n)`. -/
def seedState (n : Nat) : State := ⟨initByArray (seedKey n), stateLen⟩

/-- `_randbelow(2)` of CPython 3.11: draw `getrandbits(2)`, retry while the
draw is `≥ 2`.  The unbounded retry loop is modelled with fuel. -/
def randbelow2 : Nat → State → Option (Nat × State)
  | 0, _ => none
  | fuel + 1, st =>
    let p := getrandbits 2 st
    if p.1 < 2 then some p else randbelow2 fuel p.2

/-- Fuel bound for the rejection loop of `randbelow2`. -/
def fuelBound : Nat := 64

/-- A list of `n` draws of `random.randint(0, 1)` from the given state. -/
def randints : Nat → State → Option (List Nat × State)
  | 0, st => some ([], st)
  | n + 1, st =>
    (randbelow2 fuelBound st).bind fun p =>
      (randints n p.2).map fun rest => (p.1 :: rest.1, rest.2)

end MT19937

/-- Message of the `ValueError` raised by `encrypt` on a non-bit message. -/
def invalidInputMsg : String := "ValueError: Message must be a single bit (0 or 1)"

/-- Message of the `ValueError` raised by `add` / `multiply` on a length mismatch. -/
def lengthMismatchMsg : String := "ValueError: Ciphertexts must be the same length"

/-- Message of the `IndexError` raised by `ciphertext[-1]` on an empty list. -/
def indexErrorMsg : String := "IndexError: list index out of range"

/-- The engine state set up by `SimpleFHE.__init__`: the construction
parameters and the two generated key vectors.  The modulus `q = 8` and the
scale `q // 2 = 4` are fixed constants of the scheme (set unconditionally by
the constructor), kept below as definitions. -/
structure SimpleFHE where
  key_size : Nat
  seed : Nat
  secret_key : List Int
  public_key : List Int
deriving DecidableEq

namespace SimpleFHE

/-- `self.q = 8`, the modulus for encryption. -/
def q : Int := 8

/-- `self.scale = self.q // 2`, the scale factor for message encoding. -/
def scale : Int := q / 2

/-- `noise = 0`: the scheme always uses zero noise. -/
def noise : Int := 0

/-- `SimpleFHE(key_size, seed)` run with `g` as the current state of the
process-wide random stream: `random.seed(seed)` replaces the global state
with the freshly seeded one (the incoming `g` is discarded), then the
secret key and the public key are drawn in that order, `key_size`
independent `random.randint(0, 1)` samples each.  `none` only if the
rejection-sampling fuel is exhausted. -/
def construct (key_size seed : Nat) (g : MT19937.State) : Option (SimpleFHE × MT19937.State) :=
  let st := MT19937.seedState seed
  (MT19937.randints key_size st).bind fun skp =>
    (MT19937.randints key_size skp.2).map fun pkp =>
      (⟨key_size, seed, skp.1.map Int.ofNat, pkp.1.map Int.ofNat⟩, pkp.2)

/-- The engine produced by `SimpleFHE(key_size, seed)` (from any prior
global stream state — `construct` never reads it). -/
def init (key_size seed : Nat) : Option SimpleFHE :=
  (construct key_size seed ⟨0, MT19937.stateLen⟩).map Prod.fst

/-- `encrypt(message)`: reject non-bits, then emit one mask entry
`(public_key[i] + noise) mod q` per key position followed by the message
entry `(message * scale + noise) mod q`.  Pure in the engine state. -/
def encrypt (e : SimpleFHE) (message : Int) : Except String (List Int) :=
  if message = 0 ∨ message = 1 then
    Except.ok ((e.public_key.map fun p => (p + noise) % q) ++ [(message * scale + noise) % q])
  else
    Except.error invalidInputMsg

/-- `decrypt(ciphertext)`: split off the last entry (`IndexError` on an
empty list, exactly as `ciphertext[-1]` raises), take the unreduced dot
product of the remaining entries with the secret key (`zip` truncates to
the shorter list), and return `((message_part - dot) mod q) // scale`
with Python's floor conventions.  There is no length check. -/
def decrypt (e : SimpleFHE) (ciphertext : List Int) : Except String Int :=
  match ciphertext.getLast? with
  | none => Except.error indexErrorMsg
  | some message_part =>
    let rest := ciphertext.dropLast
    let dot_product := (List.zipWith (fun a b => a * b) rest e.secret_key).sum
    Except.ok ((message_part - dot_product) % q / scale)

/-- `add(c1, c2)`: reject length mismatch, then add mask entries pairwise
mod q and add the message entries mod q.  `c1[-1]` raises `IndexError`
when the (equal-length) ciphertexts are empty. -/
def add (e : SimpleFHE) (ciphertext1 ciphertext2 : List Int) : Except String (List Int) :=
  if ciphertext1.length ≠ ciphertext2.length then
    Except.error lengthMismatchMsg
  else
    let result := List.zipWith (fun a b => (a + b) % q) ciphertext1.dropLast ciphertext2.dropLast
    match ciphertext1.getLast?, ciphertext2.getLast? with
    | some msg1, some msg2 => Except.ok (result ++ [(msg1 + msg2) % q])
    | _, _ => Except.error indexErrorMsg

/-- `multiply(c1, c2)`: reject length mismatch, multiply mask entries
pairwise mod q, recover each message bit by `msg // scale`, and emit
`(b1 * b2 * scale) mod q` as the new message entry. -/
def multiply (e : SimpleFHE) (ciphertext1 ciphertext2 : List Int) : Except String (List Int) :=
  if ciphertext1.length ≠ ciphertext2.length then
    Except.error lengthMismatchMsg
  else
    let result := List.zipWith (fun a b => (a * b) % q) ciphertext1.dropLast ciphertext2.dropLast
    match ciphertext1.getLast?, ciphertext2.getLast? with
    | some msg1, some msg2 =>
      let b1 := msg1 / scale
      let b2 := msg2 / scale
      Except.ok (result ++ [(b1 * b2 * scale) % q])
    | _, _ => Except.error indexErrorMsg

/-- The (unreduced) dot product of the public key with the secret key.
Decryption of a fresh ciphertext returns `((message*scale - dotKey) mod q) // scale`,
so the scheme's laws hold exactly when this is `0 mod q`. -/
def dotKey (e : SimpleFHE) : Int :=
  (List.zipWith (fun a b => a * b) e.public_key e.secret_key).sum

end SimpleFHE

/-- The engine of the repository's canonical demonstration,
`SimpleFHE(key_size=8)` with the default `seed=42`; its keys are the first
sixteen `randint(0, 1)` draws after `random.seed(42)`
(proved below: `SimpleFHE.init 8 42 = some e42`). -/
def e42 : SimpleFHE := ⟨8, 42, [0, 0, 1, 0, 0, 0, 0, 0], [1, 0, 0, 0, 0, 0, 0, 0]⟩

/-- The engine `SimpleFHE(key_size=1, seed=0)`: both keys are `[1]`, so the
key dot product is `1`, not `0 mod 8` (proved below:
`SimpleFHE.init 1 0 = some e0`). -/
def e0 : SimpleFHE := ⟨1, 0, [1], [1]⟩

deriving instance DecidableEq for Except

/-- The error component of a Python-call result (`none` when the call
returned normally). -/
def errOf {α : Type} (x : Except String α) : Option String :=
  match x with
  | Except.error m => some m
  | Except.ok _ => none

/-- Modelled from the spec: "a mathematically-correct modulo (the result of
`mod q` must be normalized into `[0, q)` before dividing, not a truncating
remainder)" — the explicit floor-style normalization of §9. -/
def mod_floor (x m : Int) : Int := (x % m + m) % m

/-- Modelled from the spec (§4.3): decryption as the spec words it — the
unreduced dot product of the mask with the secret key, subtracted from the
message part, floor-normalized into `[0, q)` and floor-divided by the scale. -/
def specDecrypt (sk : List Int) (message_part : Int) (mask : List Int) : Int :=
  mod_floor (message_part - (List.zipWith (fun a b => a * b) mask sk).sum) SimpleFHE.q
    / SimpleFHE.scale

/-! Sanity checks that Lean's `%` and `/` on `Int` (Euclidean mod and div)
agree with Python's floor `%` and `//` for the positive divisors used by
the scheme. -/

/-- Python: `-1 % 8 == 7`. -/
theorem int_emod_matches_python : (-1 : Int) % 8 = 7 := by decide

/-- Python: `-9 // 4 == -3`. -/
theorem int_ediv_matches_python : (-9 : Int) / 4 = -3 := by decide

/-- The scale factor evaluates to 4. -/
theorem scale_eq : SimpleFHE.scale = 4 := by decide

/-- The modulus evaluates to 8. -/
theorem q_eq : SimpleFHE.q = 8 := by decide

/-- The noise term is 0. -/
theorem noise_eq : SimpleFHE.noise = 0 := by decide

/-- `_randbelow(2)` only ever returns a value below 2 (the rejection
loop's guarantee). -/
theorem randbelow2_lt : ∀ (fuel : Nat) (st : MT19937.State) (r : Nat) (st' : MT19937.State),
    MT19937.randbelow2 fuel st = some (r, st') → r < 2 := by
  intro fuel
  induction fuel with
  | zero => intro st r st' h; simp [MT19937.randbelow2] at h
  | succ f ih =>
    intro st r st' h
    simp only [MT19937.randbelow2] at h
    split at h
    next hlt =>
      injection h with h2
      rw [h2] at hlt
      exact hlt
    next => exact ih _ _ _ h

/-- A successful run of `n` draws of `randint(0, 1)` yields exactly `n`
values, all of them bits. -/
theorem randints_spec : ∀ (n : Nat) (st : MT19937.State) (l : List Nat) (st' : MT19937.State),
    MT19937.randints n st = some (l, st') → l.length = n ∧ ∀ b ∈ l, b < 2 := by
  intro n
  induction n with
  | zero =>
    intro st l st' h
    simp only [MT19937.randints, Option.some.injEq, Prod.mk.injEq] at h
    obtain ⟨rfl, _⟩ := h
    exact ⟨rfl, by simp⟩
  | succ n ih =>
    intro st l st' h
    simp only [MT19937.randints] at h
    obtain ⟨⟨b, st1⟩, h1, h2⟩ := Option.bind_eq_some.mp h
    obtain ⟨⟨l1, st2⟩, h3, h4⟩ := Option.map_eq_some'.mp h2
    obtain ⟨rfl, _⟩ := Prod.mk.injEq .. ▸ h4
    obtain ⟨hlen, hbits⟩ := ih st1 l1 st2 h3
    refine ⟨by simp [hlen], ?_⟩
    intro x hx
    rcases List.mem_cons.mp hx with rfl | hx2
    · exact randbelow2_lt _ _ _ _ h1
    · exact hbits x hx2

/-- A successfully constructed engine records its parameters and carries
bit-valued keys of length `key_size` (secret first, then public). -/
theorem init_spec : ∀ (ks seed : Nat) (e : SimpleFHE), SimpleFHE.init ks seed = some e →
    e.key_size = ks ∧ e.seed = seed ∧
    e.secret_key.length = ks ∧ e.public_key.length = ks ∧
    (∀ x ∈ e.secret_key, x = 0 ∨ x = 1) ∧ (∀ x ∈ e.public_key, x = 0 ∨ x = 1) := by
  intro ks seed e h
  simp only [SimpleFHE.init, SimpleFHE.construct] at h
  obtain ⟨⟨ep, st⟩, hc, hfst⟩ := Option.map_eq_some'.mp h
  obtain ⟨⟨sk, st1⟩, h1, h2⟩ := Option.bind_eq_some.mp hc
  obtain ⟨⟨pk, st2⟩, h3, h4⟩ := Option.map_eq_some'.mp h2
  obtain ⟨hsklen, hskbits⟩ := randints_spec _ _ _ _ h1
  obtain ⟨hpklen, hpkbits⟩ := randints_spec _ _ _ _ h3
  obtain ⟨he, _⟩ := Prod.mk.injEq .. ▸ h4
  rw [← hfst, ← he]
  refine ⟨rfl, rfl, by simp [hsklen], by simp [hpklen], ?_, ?_⟩
  · intro x hx
    obtain ⟨b, hb, rfl⟩ := List.mem_map.mp hx
    have hb2 : b = 0 ∨ b = 1 := by have := hskbits b hb; omega
    rcases hb2 with rfl | rfl
    · exact Or.inl rfl
    · exact Or.inr rfl
  · intro x hx
    obtain ⟨b, hb, rfl⟩ := List.mem_map.mp hx
    have hb2 : b = 0 ∨ b = 1 := by have := hpkbits b hb; omega
    rcases hb2 with rfl | rfl
    · exact Or.inl rfl
    · exact Or.inr rfl

/-- `SimpleFHE(key_size=8, seed=42)` — the canonical demo engine — has
exactly the keys recorded in `e42` (computed through the embedded MT19937). -/
theorem init_8_42 : SimpleFHE.init 8 42 = some e42 := by decide

/-- `SimpleFHE(key_size=1, seed=0)` has secret key `[1]` and public key
`[1]` (computed through the embedded MT19937). -/
theorem init_1_0 : SimpleFHE.init 1 0 = some e0 := by decide

/-- Every element of a `zipWith` image satisfies any property enjoyed by
all values of the combining function. -/
theorem mem_zipWith_imp {f : Int → Int → Int} {P : Int → Prop} (hf : ∀ a b, P (f a b)) :
    ∀ (l1 l2 : List Int), ∀ x ∈ List.zipWith f l1 l2, P x := by
  intro l1
  induction l1 with
  | nil => intro l2 x hx; simp at hx
  | cons a t ih =>
    intro l2 x hx
    cases l2 with
    | nil => simp at hx
    | cons b t2 =>
      simp only [List.zipWith_cons_cons, List.mem_cons] at hx
      rcases hx with rfl | hx2
      · exact hf a b
      · exact ih t2 x hx2

/-- Doubling every left entry doubles a dot product. -/
theorem zipWith_mul_two_sum : ∀ (l s : List Int),
    (List.zipWith (fun a b => a * b) (l.map fun p => 2 * p) s).sum =
      2 * (List.zipWith (fun a b => a * b) l s).sum := by
  intro l
  induction l with
  | nil => intro s; simp
  | cons a t ih =>
    intro s
    cases s with
    | nil => simp
    | cons b t2 =>
      simp only [List.map_cons, List.zipWith_cons_cons, List.sum_cons, ih t2]
      ring

/-- On a bit message and a bit-valued public key, `encrypt` returns the
public key itself as the mask (zero noise changes nothing mod 8) followed
by the scaled message. -/
theorem encrypt_eq_of_bits (e : SimpleFHE) (hpk : ∀ x ∈ e.public_key, x = 0 ∨ x = 1)
    (b : Int) (hb : b = 0 ∨ b = 1) :
    e.encrypt b = Except.ok (e.public_key ++ [b * 4]) := by
  unfold SimpleFHE.encrypt
  rw [if_pos hb]
  have hmask : ∀ x ∈ e.public_key, (x + SimpleFHE.noise) % SimpleFHE.q = x := by
    intro x hx
    rcases hpk x hx with rfl | rfl <;> decide
  have hmsg : (b * SimpleFHE.scale + SimpleFHE.noise) % SimpleFHE.q = b * 4 := by
    rcases hb with rfl | rfl <;> decide
  rw [List.map_congr_left hmask, List.map_id', hmsg]

/-- `decrypt` on any mask-plus-message ciphertext: subtract the truncated
dot product with the secret key, reduce mod 8, floor-divide by 4. -/
theorem decrypt_concat (e : SimpleFHE) (m : List Int) (x : Int) :
    e.decrypt (m ++ [x]) =
      Except.ok ((x - (List.zipWith (fun a b => a * b) m e.secret_key).sum) % 8 / 4) := by
  unfold SimpleFHE.decrypt
  rw [List.getLast?_concat, List.dropLast_concat]
  rfl

/-- `add` on two mask-plus-message ciphertexts of equal length. -/
theorem add_concat (e : SimpleFHE) (m1 m2 : List Int) (x1 x2 : Int)
    (hlen : m1.length = m2.length) :
    e.add (m1 ++ [x1]) (m2 ++ [x2]) =
      Except.ok (List.zipWith (fun a b => (a + b) % 8) m1 m2 ++ [(x1 + x2) % 8]) := by
  unfold SimpleFHE.add
  rw [if_neg (by simp [hlen])]
  rw [List.getLast?_concat, List.getLast?_concat, List.dropLast_concat, List.dropLast_concat]
  rfl

/-- `multiply` on two mask-plus-message ciphertexts of equal length. -/
theorem multiply_concat (e : SimpleFHE) (m1 m2 : List Int) (x1 x2 : Int)
    (hlen : m1.length = m2.length) :
    e.multiply (m1 ++ [x1]) (m2 ++ [x2]) =
      Except.ok (List.zipWith (fun a b => a * b % 8) m1 m2 ++ [x1 / 4 * (x2 / 4) * 4 % 8]) := by
  unfold SimpleFHE.multiply
  rw [if_neg (by simp [hlen])]
  rw [List.getLast?_concat, List.getLast?_concat, List.dropLast_concat, List.dropLast_concat]
  rfl

/-- Claim C1, counterexample: for the engine constructed with seed 0 and
key_size 1 (both keys `[1]`, so the key dot product is 1), decrypting the
ciphertext produced by `encrypt 0` returns 1, not 0 — the round-trip law
fails for this valid seed. -/
theorem c1_counterexample :
    SimpleFHE.init 1 0 = some e0 ∧
    (e0.encrypt 0).bind e0.decrypt = Except.ok 1 ∧ (1 : Int) ≠ 0 :=
  ⟨init_1_0, by decide, by decide⟩

/-- Claim C1 (amended): for every engine constructed from a seed whose key
dot product `Σ public_key[i] * secret_key[i]` is `0 mod 8` — in particular
the canonical seed-42, key_size-8 engine, whose dot product is 0 —
decrypting the ciphertext produced by `encrypt b` returns `b` for both
bits.  (Encryption never mixes the secret key into the message entry, so
for general seeds decryption recovers `b` only up to this key-dependent
offset, and the unconditional law fails, e.g. for seed 0 at key_size 1.) -/
theorem c1_roundtrip_dotzero : ∀ (ks seed : Nat) (e : SimpleFHE) (b : Int),
    SimpleFHE.init ks seed = some e → e.dotKey % 8 = 0 → b = 0 ∨ b = 1 →
    (e.encrypt b).bind e.decrypt = Except.ok b := by
  intro ks seed e b hinit hdot hb
  obtain ⟨_, _, _, _, _, hpk⟩ := init_spec ks seed e hinit
  rw [encrypt_eq_of_bits e hpk b hb]
  show e.decrypt (e.public_key ++ [b * 4]) = Except.ok b
  rw [decrypt_concat]
  have hd : (List.zipWith (fun a b => a * b) e.public_key e.secret_key).sum = e.dotKey := rfl
  rw [hd]
  rcases hb with rfl | rfl <;> (congr 1; omega)

/-- Claim C1, witness: the amended round-trip law instantiated on the
canonical seed-42, key_size-8 engine with bit 1. -/
theorem c1_witness : (e42.encrypt 1).bind e42.decrypt = Except.ok 1 :=
  c1_roundtrip_dotzero 8 42 e42 1 init_8_42 (by decide) (Or.inr rfl)

/-- Claim C2, counterexample: on the seed-0, key_size-1 engine,
`decrypt(add(encrypt 0, encrypt 0))` returns 1, not `(0 + 0) mod 2 = 0`. -/
theorem c2_counterexample :
    SimpleFHE.init 1 0 = some e0 ∧
    (e0.encrypt 0).bind (fun c1 =>
      (e0.encrypt 0).bind (fun c2 => (e0.add c1 c2).bind e0.decrypt)) = Except.ok 1 ∧
    (1 : Int) ≠ (0 + 0) % 2 :=
  ⟨init_1_0, by decide, by decide⟩

/-- Claim C2 (amended): the homomorphic addition law
`decrypt(add(encrypt b1, encrypt b2)) = (b1 + b2) mod 2` holds on every
engine whose key dot product is `0 mod 8` (the canonical seed-42 engine
among them); for general seeds it fails, e.g. for seed 0 at key_size 1. -/
theorem c2_add_dotzero : ∀ (ks seed : Nat) (e : SimpleFHE) (b1 b2 : Int),
    SimpleFHE.init ks seed = some e → e.dotKey % 8 = 0 →
    b1 = 0 ∨ b1 = 1 → b2 = 0 ∨ b2 = 1 →
    (e.encrypt b1).bind (fun c1 =>
      (e.encrypt b2).bind (fun c2 => (e.add c1 c2).bind e.decrypt)) =
      Except.ok ((b1 + b2) % 2) := by
  intro ks seed e b1 b2 hinit hdot hb1 hb2
  obtain ⟨_, _, _, _, _, hpk⟩ := init_spec ks seed e hinit
  rw [encrypt_eq_of_bits e hpk b1 hb1]
  show (e.encrypt b2).bind
      (fun c2 => (e.add (e.public_key ++ [b1 * 4]) c2).bind e.decrypt) = _
  rw [encrypt_eq_of_bits e hpk b2 hb2]
  show (e.add (e.public_key ++ [b1 * 4]) (e.public_key ++ [b2 * 4])).bind e.decrypt = _
  rw [add_concat e e.public_key e.public_key (b1 * 4) (b2 * 4) rfl]
  show e.decrypt (List.zipWith (fun a b => (a + b) % 8) e.public_key e.public_key ++
      [(b1 * 4 + b2 * 4) % 8]) = _
  rw [List.zipWith_same]
  have hmap : e.public_key.map (fun a => (a + a) % 8) = e.public_key.map (fun p => 2 * p) := by
    apply List.map_congr_left
    intro x hx
    rcases hpk x hx with rfl | rfl <;> decide
  rw [hmap, decrypt_concat, zipWith_mul_two_sum]
  have hd : (List.zipWith (fun a b => a * b) e.public_key e.secret_key).sum = e.dotKey := rfl
  rw [hd]
  rcases hb1 with rfl | rfl <;> rcases hb2 with rfl | rfl <;> (congr 1; omega)

/-- Claim C2, witness: the amended addition law instantiated on the
canonical seed-42 engine with bits 1 and 1. -/
theorem c2_witness :
    (e42.encrypt 1).bind (fun c1 =>
      (e42.encrypt 1).bind (fun c2 => (e42.add c1 c2).bind e42.decrypt)) =
      Except.ok ((1 + 1) % 2) :=
  c2_add_dotzero 8 42 e42 1 1 init_8_42 (by decide) (Or.inr rfl) (Or.inr rfl)

/-- Claim C3, counterexample: on the seed-0, key_size-1 engine,
`decrypt(multiply(encrypt 0, encrypt 0))` returns 1, not `0 * 0 = 0`. -/
theorem c3_counterexample :
    SimpleFHE.init 1 0 = some e0 ∧
    (e0.encrypt 0).bind (fun c1 =>
      (e0.encrypt 0).bind (fun c2 => (e0.multiply c1 c2).bind e0.decrypt)) = Except.ok 1 ∧
    (1 : Int) ≠ 0 * 0 :=
  ⟨init_1_0, by decide, by decide⟩

/-- Claim C3 (amended): the homomorphic multiplication law
`decrypt(multiply(encrypt b1, encrypt b2)) = b1 * b2` holds on every
engine whose key dot product is `0 mod 8` (the canonical seed-42 engine
among them); for general seeds it fails, e.g. for seed 0 at key_size 1. -/
theorem c3_multiply_dotzero : ∀ (ks seed : Nat) (e : SimpleFHE) (b1 b2 : Int),
    SimpleFHE.init ks seed = some e → e.dotKey % 8 = 0 →
    b1 = 0 ∨ b1 = 1 → b2 = 0 ∨ b2 = 1 →
    (e.encrypt b1).bind (fun c1 =>
      (e.encrypt b2).bind (fun c2 => (e.multiply c1 c2).bind e.decrypt)) =
      Except.ok (b1 * b2) := by
  intro ks seed e b1 b2 hinit hdot hb1 hb2
  obtain ⟨_, _, _, _, _, hpk⟩ := init_spec ks seed e hinit
  rw [encrypt_eq_of_bits e hpk b1 hb1]
  show (e.encrypt b2).bind
      (fun c2 => (e.multiply (e.public_key ++ [b1 * 4]) c2).bind e.decrypt) = _
  rw [encrypt_eq_of_bits e hpk b2 hb2]
  show (e.multiply (e.public_key ++ [b1 * 4]) (e.public_key ++ [b2 * 4])).bind e.decrypt = _
  rw [multiply_concat e e.public_key e.public_key (b1 * 4) (b2 * 4) rfl]
  show e.decrypt (List.zipWith (fun a b => a * b % 8) e.public_key e.public_key ++
      [b1 * 4 / 4 * (b2 * 4 / 4) * 4 % 8]) = _
  rw [List.zipWith_same]
  have hmap : e.public_key.map (fun a => a * a % 8) = e.public_key.map (fun a => a) := by
    apply List.map_congr_left
    intro x hx
    rcases hpk x hx with rfl | rfl <;> decide
  rw [hmap, List.map_id', decrypt_concat]
  have hd : (List.zipWith (fun a b => a * b) e.public_key e.secret_key).sum = e.dotKey := rfl
  rw [hd]
  rcases hb1 with rfl | rfl <;> rcases hb2 with rfl | rfl <;> (congr 1; omega)

/-- Claim C3, witness: the amended multiplication law instantiated on the
canonical seed-42 engine with bits 1 and 1. -/
theorem c3_witness :
    (e42.encrypt 1).bind (fun c1 =>
      (e42.encrypt 1).bind (fun c2 => (e42.multiply c1 c2).bind e42.decrypt)) =
      Except.ok (1 * 1) :=
  c3_multiply_dotzero 8 42 e42 1 1 init_8_42 (by decide) (Or.inr rfl) (Or.inr rfl)

/-- Claim C4, counterexample: the canonical key_size-8 engine decrypts the
length-1 sequence `[0]` to the value 0 — no `LengthMismatch` (nor any
other error) is raised although the length is not `key_size + 1 = 9`. -/
theorem c4_counterexample :
    SimpleFHE.init 8 42 = some e42 ∧
    ([0] : List Int).length ≠ e42.key_size + 1 ∧
    e42.decrypt [0] = Except.ok 0 :=
  ⟨init_8_42, by decide, by decide⟩

/-- Claim C4 (amended): `decrypt` performs no length validation at all.
On every non-empty sequence — of any length, matching `key_size + 1` or
not — it returns a value; only on the empty sequence does it fail, and
then with the `IndexError` of `ciphertext[-1]`, never with
`LengthMismatch`. -/
theorem c4_no_length_check : ∀ (e : SimpleFHE) (ct : List Int),
    errOf (e.decrypt ct) = (if ct.isEmpty then some indexErrorMsg else none) ∧
    (e.decrypt ct).isOk = !ct.isEmpty := by
  intro e ct
  cases hl : ct.getLast? with
  | none =>
    have h0 : ct = [] := List.getLast?_eq_none_iff.mp hl
    subst h0
    exact ⟨rfl, rfl⟩
  | some x =>
    have hne : ct ≠ [] := by
      intro hc
      subst hc
      simp at hl
    have hemp : ct.isEmpty = false := by
      cases ct with
      | nil => exact absurd rfl hne
      | cons a t => rfl
    unfold SimpleFHE.decrypt
    rw [hl, hemp]
    exact ⟨rfl, rfl⟩

/-- Claim C5: on every non-empty sequence of integers (every such sequence
is some `m ++ [x]`), `decrypt` returns without error, and the value is a
bit: the residue mod 8 lies in `[0, 8)` and floor division by 4 maps it
into `{0, 1}`. -/
theorem c5_decrypt_total_bit : ∀ (e : SimpleFHE) (m : List Int) (x : Int),
    ∃ v, e.decrypt (m ++ [x]) = Except.ok v ∧ (v = 0 ∨ v = 1) := by
  intro e m x
  refine ⟨_, decrypt_concat e m x, ?_⟩
  omega

/-- Claim C6: `encrypt` fails, with exactly the `InvalidInput`
(`ValueError`) message, precisely on messages outside `{0, 1}`, and
succeeds precisely on `0` and `1`.  (In the embedding `encrypt` is a pure
function of the engine: it reads only the public key and the constants, so
no key, modulus, scale or random-stream state can be mutated, and a failing
call produces no partial ciphertext.) -/
theorem c6_encrypt_validation : ∀ (e : SimpleFHE) (message : Int),
    errOf (e.encrypt message) =
      (if message = 0 ∨ message = 1 then none else some invalidInputMsg) ∧
    ((e.encrypt message).isOk = true ↔ (message = 0 ∨ message = 1)) := by
  intro e message
  unfold SimpleFHE.encrypt errOf
  by_cases h : message = 0 ∨ message = 1 <;> simp [h, Except.isOk, Except.toBool]

/-- Claim C7, counterexample: `add` and `multiply` applied to two
sequences of the same length 0 do not return a full result — they raise
the `IndexError` of `ciphertext[-1]`, contradicting "when the lengths are
equal no error is raised". -/
theorem c7_counterexample :
    SimpleFHE.init 8 42 = some e42 ∧
    ([] : List Int).length = ([] : List Int).length ∧
    e42.add [] [] = Except.error indexErrorMsg ∧
    e42.multiply [] [] = Except.error indexErrorMsg :=
  ⟨init_8_42, rfl, by decide, by decide⟩

/-- Claim C7 (amended): `add` and `multiply` fail with `LengthMismatch`
exactly when the two sequences have different lengths; on equal-length
non-empty sequences they return a full result with no error, but on two
empty sequences (equal lengths) they fail with `IndexError` instead of
returning. -/
theorem c7_length_check : ∀ (e : SimpleFHE) (c1 c2 : List Int),
    errOf (e.add c1 c2) =
      (if c1.length ≠ c2.length then some lengthMismatchMsg
        else if c1.isEmpty then some indexErrorMsg else none) ∧
    errOf (e.multiply c1 c2) =
      (if c1.length ≠ c2.length then some lengthMismatchMsg
        else if c1.isEmpty then some indexErrorMsg else none) := by
  intro e c1 c2
  by_cases hlen : c1.length = c2.length
  · cases c1 with
    | nil =>
      have h2 : c2 = [] := List.length_eq_zero.mp hlen.symm
      subst h2
      exact ⟨rfl, rfl⟩
    | cons a t =>
      cases c2 with
      | nil => simp at hlen
      | cons b t2 =>
        have h1 := List.getLast?_eq_getLast (a :: t) (by simp)
        have h2 := List.getLast?_eq_getLast (b :: t2) (by simp)
        unfold SimpleFHE.add SimpleFHE.multiply
        rw [if_neg (by simp [hlen]), if_neg (by simp [hlen]), h1, h2]
        exact ⟨by simp [errOf, hlen], by simp [errOf, hlen]⟩
  · unfold SimpleFHE.add SimpleFHE.multiply
    constructor <;> simp [errOf, hlen]

/-- A mod-8 residue lies in `[0, q)`. -/
theorem emod8_range (y : Int) : 0 ≤ y % 8 ∧ y % 8 < SimpleFHE.q :=
  ⟨Int.emod_nonneg y (by decide), by rw [q_eq]; exact Int.emod_lt_of_pos y (by decide)⟩

/-- Claim C8: every ciphertext produced by `encrypt` on a constructed
engine has length `key_size + 1` with all entries in `[0, q)`, and on any
two equal-length inputs a returned result of `add` or `multiply` has that
same length with all entries in `[0, q)`. -/
theorem c8_length_range : ∀ (ks seed : Nat) (e : SimpleFHE),
    SimpleFHE.init ks seed = some e →
    (∀ (b : Int) (ct : List Int), e.encrypt b = Except.ok ct →
      ct.length = ks + 1 ∧ ∀ x ∈ ct, 0 ≤ x ∧ x < SimpleFHE.q) ∧
    (∀ c1 c2 r : List Int, e.add c1 c2 = Except.ok r →
      r.length = c1.length ∧ r.length = c2.length ∧ ∀ x ∈ r, 0 ≤ x ∧ x < SimpleFHE.q) ∧
    (∀ c1 c2 r : List Int, e.multiply c1 c2 = Except.ok r →
      r.length = c1.length ∧ r.length = c2.length ∧ ∀ x ∈ r, 0 ≤ x ∧ x < SimpleFHE.q) := by
  intro ks seed e hinit
  obtain ⟨_, _, _, hpklen, _, _⟩ := init_spec ks seed e hinit
  refine ⟨?_, ?_, ?_⟩
  · intro b ct hct
    unfold SimpleFHE.encrypt at hct
    split at hct
    · injection hct with hct
      subst hct
      constructor
      · simp [hpklen]
      · intro x hx
        rcases List.mem_append.mp hx with hx1 | hx2
        · obtain ⟨p, _, rfl⟩ := List.mem_map.mp hx1
          exact ⟨Int.emod_nonneg _ (by decide), Int.emod_lt_of_pos _ (by decide)⟩
        · rw [List.mem_singleton.mp hx2]
          exact ⟨Int.emod_nonneg _ (by decide), Int.emod_lt_of_pos _ (by decide)⟩
    · simp at hct
  · intro c1 c2 r hr
    rcases List.eq_nil_or_concat c1 with rfl | ⟨m1, x1, rfl⟩
    · rcases List.eq_nil_or_concat c2 with rfl | ⟨m2, x2, rfl⟩
      · simp [SimpleFHE.add] at hr
      · simp [SimpleFHE.add] at hr
    · rcases List.eq_nil_or_concat c2 with rfl | ⟨m2, x2, rfl⟩
      · simp [SimpleFHE.add] at hr
      · simp only [List.concat_eq_append] at hr ⊢
        by_cases hlen : m1.length = m2.length
        · rw [add_concat e m1 m2 x1 x2 hlen] at hr
          injection hr with hr
          subst hr
          refine ⟨?_, ?_, ?_⟩
          · simp [List.length_zipWith, hlen]
          · simp [List.length_zipWith, hlen]
          · intro x hx
            rcases List.mem_append.mp hx with hx1 | hx2
            · exact @mem_zipWith_imp (fun a b => (a + b) % 8)
                (fun y => 0 ≤ y ∧ y < SimpleFHE.q) (fun a b => emod8_range (a + b)) m1 m2 x hx1
            · rw [List.mem_singleton.mp hx2]
              exact emod8_range (x1 + x2)
        · exfalso
          unfold SimpleFHE.add at hr
          rw [if_pos (by simp [hlen])] at hr
          simp at hr
  · intro c1 c2 r hr
    rcases List.eq_nil_or_concat c1 with rfl | ⟨m1, x1, rfl⟩
    · rcases List.eq_nil_or_concat c2 with rfl | ⟨m2, x2, rfl⟩
      · simp [SimpleFHE.multiply] at hr
      · simp [SimpleFHE.multiply] at hr
    · rcases List.eq_nil_or_concat c2 with rfl | ⟨m2, x2, rfl⟩
      · simp [SimpleFHE.multiply] at hr
      · simp only [List.concat_eq_append] at hr ⊢
        by_cases hlen : m1.length = m2.length
        · rw [multiply_concat e m1 m2 x1 x2 hlen] at hr
          injection hr with hr
          subst hr
          refine ⟨?_, ?_, ?_⟩
          · simp [List.length_zipWith, hlen]
          · simp [List.length_zipWith, hlen]
          · intro x hx
            rcases List.mem_append.mp hx with hx1 | hx2
            · exact @mem_zipWith_imp (fun a b => a * b % 8)
                (fun y => 0 ≤ y ∧ y < SimpleFHE.q) (fun a b => emod8_range (a * b)) m1 m2 x hx1
            · rw [List.mem_singleton.mp hx2]
              exact emod8_range (x1 / 4 * (x2 / 4) * 4)
        · exfalso
          unfold SimpleFHE.multiply at hr
          rw [if_pos (by simp [hlen])] at hr
          simp at hr

/-- Claim C8, witness: the invariants instantiated on the canonical
engine — the ciphertext of bit 0, one `add` result and one `multiply`
result. -/
theorem c8_witness :
    (([1, 0, 0, 0, 0, 0, 0, 0, 0] : List Int).length = 8 + 1 ∧
      ∀ x ∈ ([1, 0, 0, 0, 0, 0, 0, 0, 0] : List Int), 0 ≤ x ∧ x < SimpleFHE.q) ∧
    (([4, 6] : List Int).length = ([1, 2] : List Int).length ∧
      ([4, 6] : List Int).length = ([3, 4] : List Int).length ∧
      ∀ x ∈ ([4, 6] : List Int), 0 ≤ x ∧ x < SimpleFHE.q) ∧
    (([3, 0] : List Int).length = ([1, 2] : List Int).length ∧
      ([3, 0] : List Int).length = ([3, 4] : List Int).length ∧
      ∀ x ∈ ([3, 0] : List Int), 0 ≤ x ∧ x < SimpleFHE.q) :=
  ⟨(c8_length_range 8 42 e42 init_8_42).1 0 [1, 0, 0, 0, 0, 0, 0, 0, 0] (by decide),
   (c8_length_range 8 42 e42 init_8_42).2.1 [1, 2] [3, 4] [4, 6] (by decide),
   (c8_length_range 8 42 e42 init_8_42).2.2 [1, 2] [3, 4] [3, 0] (by decide)⟩

/-- Claim C9: constructing two engines with the same `seed` and `key_size`
— from any two states of the process-wide random stream, since
`random.seed(seed)` replaces that state — yields identical secret keys,
identical public keys, and identical ciphertexts for every message
(`encrypt` draws no randomness). -/
theorem c9_determinism : ∀ (ks seed : Nat) (g1 g2 : MT19937.State) (e1 e2 : SimpleFHE),
    (SimpleFHE.construct ks seed g1).map Prod.fst = some e1 →
    (SimpleFHE.construct ks seed g2).map Prod.fst = some e2 →
    e1.secret_key = e2.secret_key ∧ e1.public_key = e2.public_key ∧
    ∀ b : Int, e1.encrypt b = e2.encrypt b := by
  intro ks seed g1 g2 e1 e2 h1 h2
  have hgg : SimpleFHE.construct ks seed g1 = SimpleFHE.construct ks seed g2 := rfl
  rw [hgg] at h1
  have h3 := h1.symm.trans h2
  injection h3 with h3
  subst h3
  exact ⟨rfl, rfl, fun _ => rfl⟩

/-- Claim C9, witness: two constructions of `SimpleFHE(key_size=1, seed=0)`
against different prior global stream states produce the same engine `e0`,
hence equal keys and equal ciphertexts. -/
theorem c9_witness :
    e0.secret_key = e0.secret_key ∧ e0.public_key = e0.public_key ∧
    ∀ b : Int, e0.encrypt b = e0.encrypt b :=
  c9_determinism 1 0 ⟨0, MT19937.stateLen⟩ ⟨12345, 7⟩ e0 e0 init_1_0 init_1_0

/-- Claim C10: on every input `mask ++ [message_part]`, `decrypt` returns
exactly the spec's formula — the unreduced dot product of the mask with
the secret key (`zip` pairs position-for-position, truncating at
`key_size`), subtracted from the message part, floor-normalized into
`[0, q)` and then floor-divided by the scale — and the normalized residue
indeed lies in `[0, q)` even when `message_part - dot` is negative. -/
theorem c10_decrypt_formula : ∀ (e : SimpleFHE) (mask : List Int) (message_part : Int),
    e.decrypt (mask ++ [message_part]) =
      Except.ok (specDecrypt e.secret_key message_part mask) ∧
    0 ≤ mod_floor
        (message_part - (List.zipWith (fun a b => a * b) mask e.secret_key).sum) SimpleFHE.q ∧
    mod_floor (message_part - (List.zipWith (fun a b => a * b) mask e.secret_key).sum)
        SimpleFHE.q < SimpleFHE.q := by
  intro e mask mp
  have hmf : ∀ y : Int, mod_floor y SimpleFHE.q = y % 8 := by
    intro y
    unfold mod_floor
    rw [q_eq]
    omega
  refine ⟨?_, ?_, ?_⟩
  · rw [decrypt_concat]
    unfold specDecrypt
    rw [hmf, scale_eq]
  · rw [hmf]
    exact Int.emod_nonneg _ (by decide)
  · rw [hmf, q_eq]
    exact Int.emod_lt_of_pos _ (by decide)
